import Mathlib

/-!
Verification of the authkit-cli migration engine.

This file shallowly embeds the core of the migration engine
(`src/migrations/mod.rs`, `src/migrations/runner.rs`, `src/config.rs`,
`src/schema/mod.rs`) in Lean 4 and proves the specified properties about it.

Strings are modelled as Lean `String`s; the character-level routines
(`split`, `trim`, `lines`, `starts_with`) are reimplemented over `List Char`
to mirror the Rust standard-library semantics used by the source.
The database execution primitive (sqlx) is abstracted as a function
`String → Except String Unit` (execute one SQL statement, succeed or fail
with an error message), and the tracking table as an explicit list of rows,
exactly the interface the spec's §1 assigns to the external database layer.
-/

namespace AuthKit

/-! ## Character-level string primitives (models of Rust `str` methods) -/

/-- Model of the whitespace class used by Rust `str::trim` on the ASCII
range (space, tab, carriage return, line feed). -/
def isWs (c : Char) : Bool :=
  c = ' ' || c = '\t' || c = '\r' || c = '\n'

/-- Model of Rust `str::trim`: drop whitespace from both ends. -/
def trimChars (l : List Char) : List Char :=
  ((l.dropWhile isWs).reverse.dropWhile isWs).reverse

/-- Split a character list at every occurrence of the separator `c`
(model of Rust `str::split(c)`, which yields `n+1` parts for `n`
separators, including empty parts). -/
def splitOnChar (c : Char) : List Char → List (List Char)
  | [] => [[]]
  | x :: xs =>
    if x = c then
      [] :: splitOnChar c xs
    else
      match splitOnChar c xs with
      | [] => [[x]]
      | y :: ys => (x :: y) :: ys

/-- Remove one trailing carriage return, as Rust `str::lines` does for
lines terminated by `\r\n`. -/
def stripCR (l : List Char) : List Char :=
  if l.getLast? = some '\r' then l.dropLast else l

/-- Helper for `rustLines`: all parts except the final one were followed
by a newline, so they get their trailing `\r` stripped; a final empty
part (from a trailing newline) is dropped. -/
def rustLinesAux : List Char → List (List Char) → List (List Char)
  | last, [] => if last.isEmpty then [] else [last]
  | p, q :: qs => stripCR p :: rustLinesAux q qs

/-- Model of Rust `str::lines`: split on `'\n'`, strip a trailing `'\r'`
from every line that was newline-terminated, and do not produce a final
empty line for a trailing newline. -/
def rustLines (s : List Char) : List (List Char) :=
  match splitOnChar '\n' s with
  | [] => []
  | p :: ps => rustLinesAux p ps

/-- Model of Rust `str::starts_with("--")`. -/
def startsDashDash (l : List Char) : Bool :=
  match l with
  | '-' :: '-' :: _ => true
  | _ => false

/-- Join lines with `'\n'` (model of Rust `[&str]::join("\n")`). -/
def joinLines : List (List Char) → List Char
  | [] => []
  | [l] => l
  | l :: ls => l ++ '\n' :: joinLines ls

/-! ## `MigrationRunner::strip_leading_comments` -/

/-- The loop of `strip_leading_comments`: walk the lines carrying the
`found_non_comment` flag; while the flag is unset, skip blank lines and
lines whose trimmed form starts with `--`; once a real line is seen, keep
every line. -/
def stripGo : List (List Char) → Bool → List (List Char)
  | [], _ => []
  | line :: rest, true => line :: stripGo rest true
  | line :: rest, false =>
    if (trimChars line).isEmpty || startsDashDash (trimChars line) then
      stripGo rest false
    else
      line :: stripGo rest true

/-- `MigrationRunner::strip_leading_comments` on `List Char`:
collect the lines with `stripGo`, join with newlines, and trim. -/
def stripChars (sql : List Char) : List Char :=
  trimChars (joinLines (stripGo (rustLines sql) false))

/-- `MigrationRunner::strip_leading_comments` (runner.rs:185-202). -/
def strip_leading_comments (sql : String) : String :=
  String.mk (stripChars sql.data)

/-! ## Data model (`src/migrations/mod.rs`, `src/config.rs`, `src/error.rs`) -/

/-- `DatabaseType` (cli.rs): the dialect tag. -/
inductive DatabaseType where
  | Sqlite
  | Postgres
deriving DecidableEq, Repr

/-- `Migration` (migrations/mod.rs): an immutable catalog entry. -/
structure Migration where
  version : Nat
  name : String
  up_sql : String
  down_sql : String
  checksum : String
deriving DecidableEq, Repr

/-- `AppliedMigration` (migrations/mod.rs): a row of the tracking table. -/
structure AppliedMigration where
  version : Nat
  name : String
  applied_at : Int
  checksum : String
deriving DecidableEq, Repr

/-- `MigrationState` (migrations/mod.rs). -/
inductive MigrationState where
  | Applied
  | Pending
  | Missing
deriving DecidableEq, Repr

/-- The variants of `CliError` (error.rs) reachable from the migration
core. `ChecksumMismatch` carries version, expected (recorded) digest and
actual (current catalog) digest. -/
inductive CliError where
  | Migration : String → CliError
  | ChecksumMismatch : Nat → String → String → CliError
  | ConfigParse : String → CliError
deriving DecidableEq, Repr

/-- `FeaturesConfig` (config.rs). -/
structure FeaturesConfig where
  email_password : Bool
  email_verification : Bool
deriving DecidableEq, Repr

/-- `AuthKitConfig` (config.rs); `db_type` is the raw string from the
`database.type` field. -/
structure AuthKitConfig where
  db_type : String
  features : FeaturesConfig
deriving DecidableEq, Repr

/-- `Feature` (config.rs). -/
inductive Feature where
  | EmailPassword
  | EmailVerification
deriving DecidableEq, Repr

/-- `Feature::version` (config.rs:166-171). -/
def Feature.version : Feature → Nat
  | .EmailPassword => 1
  | .EmailVerification => 2

/-- `Feature::migration_name` (config.rs:150-155). -/
def Feature.migration_name : Feature → String
  | .EmailPassword => "base"
  | .EmailVerification => "email_verification"

/-- `AuthKitConfig::validate` (config.rs:87-107): accept only database
type "sqlite" or "postgres", then require the base feature flag. -/
def AuthKitConfig.validate (c : AuthKitConfig) : Except CliError Unit :=
  if c.db_type = "sqlite" ∨ c.db_type = "postgres" then
    if ¬ c.features.email_password then
      .error (.ConfigParse
        "email_password feature must be enabled (it is the base feature)")
    else
      .ok ()
  else
    .error (.ConfigParse
      ("Invalid database type '" ++ c.db_type ++
        "'. Must be 'sqlite' or 'postgres'."))

/-- `AuthKitConfig::enabled_features` (config.rs:122-136): base feature
first when enabled, then the add-on features in order. -/
def AuthKitConfig.enabled_features (c : AuthKitConfig) : List Feature :=
  (if c.features.email_password then [Feature.EmailPassword] else []) ++
    (if c.features.email_verification then [Feature.EmailVerification] else [])

/-! ## Feature catalog (`src/schema/mod.rs`)

The static SQL templates live in `src/schema/features/`; their exact text
is irrelevant to the claims, so the catalog builder is parametrised by the
template lookup `sqlOf : Feature → DatabaseType → String × String` and by
the checksum engine `checksumOf` (SHA-256 in the source, an opaque
deterministic `String → String` here). -/

/-- `get_feature_migration` (schema/mod.rs:13-41). -/
def get_feature_migration (checksumOf : String → String)
    (sqlOf : Feature → DatabaseType → String × String)
    (f : Feature) (db : DatabaseType) : Migration :=
  let p := sqlOf f db
  { version := f.version
    name := f.migration_name
    up_sql := p.1
    down_sql := p.2
    checksum := checksumOf p.1 }

/-- `get_migrations_for_features` (schema/mod.rs:44-49). -/
def get_migrations_for_features (checksumOf : String → String)
    (sqlOf : Feature → DatabaseType → String × String)
    (features : List Feature) (db : DatabaseType) : List Migration :=
  features.map (fun f => get_feature_migration checksumOf sqlOf f db)

/-- Modelled from the spec: `get_migrations_from_config` is called by the
runner (runner.rs:209, 226) but its definition is not among the provided
sources; per spec §2 the data flow is "configuration (feature flags +
dialect) → Feature Catalog → ordered Migration list", i.e. the catalog
built from the configuration's enabled-feature list. -/
def get_migrations_from_config (checksumOf : String → String)
    (sqlOf : Feature → DatabaseType → String × String)
    (c : AuthKitConfig) (db : DatabaseType) : List Migration :=
  get_migrations_for_features checksumOf sqlOf c.enabled_features db

/-! ## Migration runner (`src/migrations/runner.rs`)

The target database is modelled as the list of successfully executed SQL
statements plus the tracking table contents; the sqlx execution primitive
is a parameter `exec : String → Except String Unit`. -/

/-- The observable state of the target database: the trace of executed
statements and the `_authkit_migrations` tracking table rows (in insertion
order; `version` is the primary key). -/
structure DB where
  executed : List String
  tracking : List AppliedMigration
deriving DecidableEq, Repr

/-- `MigrationRunner::get_pending_migrations` (runner.rs:76-87): catalog
entries whose version is not among the applied versions, in catalog
order. -/
def get_pending_migrations (available : List Migration)
    (applied : List AppliedMigration) : List Migration :=
  available.filter
    (fun m => !((applied.map AppliedMigration.version).contains m.version))

/-- Last-match lookup of an applied row by version: the model of
`applied.iter().map(|m| (m.version, m)).collect::<HashMap<_,_>>()`
followed by `get` (on duplicate keys a Rust HashMap keeps the last
insertion). -/
def appliedLookup : List AppliedMigration → Nat → Option AppliedMigration
  | [], _ => none
  | a :: rest, v =>
    match appliedLookup rest v with
    | some r => some r
    | none => if a.version = v then some a else none

/-- Last-match lookup of a catalog entry by version (model of the
`available_map` HashMap in `verify_checksums`). -/
def migLookup : List Migration → Nat → Option Migration
  | [], _ => none
  | m :: rest, v =>
    match migLookup rest v with
    | some r => some r
    | none => if m.version = v then some m else none

/-- One row of the status report: the tuple
`(u32, String, MigrationState, Option<i64>)` of `get_migration_status`. -/
structure StatusEntry where
  version : Nat
  name : String
  state : MigrationState
  applied_at : Option Int
deriving DecidableEq, Repr

/-- The comparison passed to the final `sort_by_key(|(v, ...)| *v)`. -/
def statusLE (x y : StatusEntry) : Bool :=
  x.version ≤ y.version

/-- The status entry produced for a catalog entry by the first loop of
`get_migration_status` (runner.rs:101-117): Applied with the tracking
row's timestamp when a row of the same version exists, Pending with no
timestamp otherwise. -/
def statusOfMig (applied : List AppliedMigration) (m : Migration) :
    StatusEntry :=
  match appliedLookup applied m.version with
  | some a =>
      { version := m.version, name := m.name,
        state := .Applied, applied_at := some a.applied_at }
  | none =>
      { version := m.version, name := m.name,
        state := .Pending, applied_at := none }

/-- The status entry produced for an applied row with no catalog entry by
the second loop of `get_migration_status` (runner.rs:122-131). -/
def statusOfMissing (a : AppliedMigration) : StatusEntry :=
  { version := a.version, name := a.name,
    state := .Missing, applied_at := some a.applied_at }

/-- `MigrationRunner::get_migration_status` (runner.rs:90-135): classify
every catalog entry as Applied/Pending, add a Missing entry for every
applied row whose version is not in the catalog, and stably sort the
result by version. -/
def get_migration_status (available : List Migration)
    (applied : List AppliedMigration) : List StatusEntry :=
  (available.map (statusOfMig applied) ++
    (applied.filter
        (fun a => !((available.map Migration.version).contains a.version))).map
      statusOfMissing).mergeSort statusLE

/-- The `up_sql.split(';')` preprocessing loop of `apply_migration`
(runner.rs:140-150): split on `';'`, trim, drop empty candidates, strip
leading comments, drop statements that became empty. -/
def splitStatements (sql : String) : List String :=
  (splitOnChar ';' sql.data).filterMap (fun st =>
    let trimmed := trimChars st
    if trimmed.isEmpty then none
    else
      let s := stripChars trimmed
      if s.isEmpty then none else some (String.mk s))

/-- The statement-execution loop of `apply_migration` (runner.rs:140-158):
run each statement through `exec`; a success is appended to the executed
trace, the first failure aborts with a `CliError::Migration` naming the
migration. -/
def execStatements (exec : String → Except String Unit) (name : String) :
    DB → List String → DB × Option CliError
  | db, [] => (db, none)
  | db, s :: rest =>
    match exec s with
    | .ok _ =>
        execStatements exec name { db with executed := db.executed ++ [s] } rest
    | .error e =>
        (db, some (.Migration
          ("Failed to execute migration " ++ name ++ ": " ++ e)))

/-- The tracking row inserted for a migration applied at time `now`. -/
def appliedRow (now : Int) (m : Migration) : AppliedMigration :=
  { version := m.version, name := m.name,
    applied_at := now, checksum := m.checksum }

/-- `MigrationRunner::record_migration` (runner.rs:167-181): insert a
tracking row with the current timestamp. -/
def record_migration (now : Int) (db : DB) (m : Migration) : DB :=
  { db with tracking := db.tracking ++ [appliedRow now m] }

/-- `MigrationRunner::apply_migration` (runner.rs:138-164): execute the
split statements in order; on full success record the migration, on the
first failure return the error without recording. -/
def apply_migration (exec : String → Except String Unit) (now : Int)
    (db : DB) (m : Migration) : DB × Option CliError :=
  let r := execStatements exec m.name db (splitStatements m.up_sql)
  match r.2 with
  | some e => (r.1, some e)
  | none => (record_migration now r.1 m, none)

/-- The loop of `run_pending` (runner.rs:215-218): apply each pending
migration in order, collecting names; the first failure aborts the
remaining queue (the database state reached so far persists). -/
def run_pending_go (exec : String → Except String Unit) (now : Int) :
    List Migration → DB → DB × Except CliError (List String)
  | [], db => (db, .ok [])
  | m :: rest, db =>
    let r := apply_migration exec now db m
    match r.2 with
    | some e => (r.1, .error e)
    | none =>
      let r2 := run_pending_go exec now rest r.1
      match r2.2 with
      | .ok names => (r2.1, .ok (m.name :: names))
      | .error e => (r2.1, .error e)

/-- `MigrationRunner::run_pending` (runner.rs:206-221): compute the
pending queue from the catalog and the tracking table, then apply it in
order. -/
def run_pending (exec : String → Except String Unit) (now : Int)
    (catalog : List Migration) (db : DB) :
    DB × Except CliError (List String) :=
  run_pending_go exec now (get_pending_migrations catalog db.tracking) db

/-- The comparison loop of `MigrationRunner::verify_checksums`
(runner.rs:225-245): for each applied row in order, if the catalog has an
entry of the same version and the checksums differ, fail with
`ChecksumMismatch { version, expected = recorded, actual = catalog }`;
rows without a catalog entry are skipped. -/
def verify_checksums (available : List Migration) :
    List AppliedMigration → Except CliError Unit
  | [] => .ok ()
  | a :: rest =>
    match migLookup available a.version with
    | some m =>
      if m.checksum ≠ a.checksum then
        .error (.ChecksumMismatch a.version a.checksum m.checksum)
      else
        verify_checksums available rest
    | none => verify_checksums available rest

/-! ## Specification-side definitions -/

/-- A line the leading-comment scan of `strip_leading_comments` skips:
blank after trimming, or a `--` line comment. -/
def skippableLine (l : List Char) : Bool :=
  (trimChars l).isEmpty || startsDashDash (trimChars l)

/-- A migration all of whose split statements succeed under the execution
primitive `exec`. -/
def migOk (exec : String → Except String Unit) (m : Migration) : Prop :=
  ∀ s ∈ splitStatements m.up_sql, exec s = .ok ()

/-- The statements of a run of migrations, in execution order. -/
def stmtsOf : List Migration → List String
  | [] => []
  | m :: ms => splitStatements m.up_sql ++ stmtsOf ms

/-! ## Helper lemmas -/

theorem contains_iff_mem_nat (vs : List Nat) (v : Nat) :
    vs.contains v = true ↔ v ∈ vs := by
  simp [List.contains]

theorem migLookup_eq_none_iff (available : List Migration) (v : Nat) :
    migLookup available v = none ↔ v ∉ available.map Migration.version := by
  induction available with
  | nil => simp [migLookup]
  | cons m rest ih =>
    simp only [migLookup, List.map_cons, List.mem_cons]
    split
    · next r heq =>
      have hv : v ∈ rest.map Migration.version := by
        by_contra hnot
        have h0 := ih.mpr hnot
        rw [heq] at h0
        exact Option.noConfusion h0
      constructor
      · intro h0; exact Option.noConfusion h0
      · intro hc; exact absurd (Or.inr hv) hc
    · next heq =>
      have hv : v ∉ rest.map Migration.version := ih.mp heq
      by_cases hm : m.version = v
      · rw [if_pos hm]
        constructor
        · intro h0; exact Option.noConfusion h0
        · intro hc; exact absurd (Or.inl hm.symm) hc
      · rw [if_neg hm]
        constructor
        · intro _
          rintro (h1 | h2)
          · exact hm h1.symm
          · exact hv h2
        · intro _; rfl

theorem migLookup_some_mem (available : List Migration) (v : Nat)
    (m : Migration) : migLookup available v = some m →
    m ∈ available ∧ m.version = v := by
  induction available with
  | nil => intro h; exact Option.noConfusion h
  | cons x rest ih =>
    simp only [migLookup]
    split
    · next r heq =>
      intro h
      injection h with h
      subst h
      obtain ⟨h1, h2⟩ := ih heq
      exact ⟨List.mem_cons_of_mem _ h1, h2⟩
    · next heq =>
      by_cases hv : x.version = v
      · rw [if_pos hv]
        intro h
        injection h with h
        subst h
        exact ⟨List.mem_cons_self _ _, hv⟩
      · rw [if_neg hv]
        intro h
        exact Option.noConfusion h

theorem appliedLookup_eq_none_iff (applied : List AppliedMigration) (v : Nat) :
    appliedLookup applied v = none ↔ v ∉ applied.map AppliedMigration.version := by
  induction applied with
  | nil => simp [appliedLookup]
  | cons a rest ih =>
    simp only [appliedLookup, List.map_cons, List.mem_cons]
    split
    · next r heq =>
      have hv : v ∈ rest.map AppliedMigration.version := by
        by_contra hnot
        have h0 := ih.mpr hnot
        rw [heq] at h0
        exact Option.noConfusion h0
      constructor
      · intro h0; exact Option.noConfusion h0
      · intro hc; exact absurd (Or.inr hv) hc
    · next heq =>
      have hv : v ∉ rest.map AppliedMigration.version := ih.mp heq
      by_cases hm : a.version = v
      · rw [if_pos hm]
        constructor
        · intro h0; exact Option.noConfusion h0
        · intro hc; exact absurd (Or.inl hm.symm) hc
      · rw [if_neg hm]
        constructor
        · intro _
          rintro (h1 | h2)
          · exact hm h1.symm
          · exact hv h2
        · intro _; rfl

theorem appliedLookup_some_mem (applied : List AppliedMigration) (v : Nat)
    (a : AppliedMigration) : appliedLookup applied v = some a →
    a ∈ applied ∧ a.version = v := by
  induction applied with
  | nil => intro h; exact Option.noConfusion h
  | cons x rest ih =>
    simp only [appliedLookup]
    split
    · next r heq =>
      intro h
      injection h with h
      subst h
      obtain ⟨h1, h2⟩ := ih heq
      exact ⟨List.mem_cons_of_mem _ h1, h2⟩
    · next heq =>
      by_cases hv : x.version = v
      · rw [if_pos hv]
        intro h
        injection h with h
        subst h
        exact ⟨List.mem_cons_self _ _, hv⟩
      · rw [if_neg hv]
        intro h
        exact Option.noConfusion h

theorem verify_checksums_all_ok (available : List Migration) :
    ∀ applied : List AppliedMigration,
    (∀ a ∈ applied, ∀ m : Migration,
      migLookup available a.version = some m → m.checksum = a.checksum) →
    verify_checksums available applied = .ok () := by
  intro applied
  induction applied with
  | nil => intro _; rfl
  | cons a rest ih =>
    intro h
    simp only [verify_checksums]
    split
    · next m heq =>
      rw [if_neg (not_not_intro (h a (List.mem_cons_self _ _) m heq))]
      exact ih (fun b hb => h b (List.mem_cons_of_mem _ hb))
    · next heq =>
      exact ih (fun b hb => h b (List.mem_cons_of_mem _ hb))

theorem verify_checksums_first_err (available : List Migration)
    (a : AppliedMigration) (m : Migration) (l₂ : List AppliedMigration)
    (hl : migLookup available a.version = some m)
    (hne : m.checksum ≠ a.checksum) :
    ∀ l₁ : List AppliedMigration,
    (∀ b ∈ l₁, ∀ m' : Migration,
      migLookup available b.version = some m' → m'.checksum = b.checksum) →
    verify_checksums available (l₁ ++ a :: l₂)
      = .error (.ChecksumMismatch a.version a.checksum m.checksum) := by
  intro l₁
  induction l₁ with
  | nil =>
    intro _
    rw [List.nil_append]
    simp only [verify_checksums]
    split
    · next m' heq' =>
      rw [hl] at heq'
      injection heq' with heq'
      subst heq'
      rw [if_pos hne]
    · next heq' =>
      rw [hl] at heq'
      exact Option.noConfusion heq'
  | cons b rest ih =>
    intro hpass
    rw [List.cons_append]
    simp only [verify_checksums]
    split
    · next m' heq' =>
      rw [if_neg (not_not_intro (hpass b (List.mem_cons_self _ _) m' heq'))]
      exact ih (fun x hx => hpass x (List.mem_cons_of_mem _ hx))
    · next heq' =>
      exact ih (fun x hx => hpass x (List.mem_cons_of_mem _ hx))

/-! ## Claim theorems -/

/-- C5: `get_pending_migrations` returns exactly the catalog entries whose
version does not appear in the applied set, in catalog order (it is a
sublist of the catalog); hence an ascending-version catalog yields pending
migrations in ascending version order. -/
theorem get_pending_migrations_spec (available : List Migration)
    (applied : List AppliedMigration) :
    (∀ m : Migration, m ∈ get_pending_migrations available applied ↔
        m ∈ available ∧ m.version ∉ applied.map AppliedMigration.version)
    ∧ (get_pending_migrations available applied).Sublist available
    ∧ ((available.map Migration.version).Pairwise (· < ·) →
        ((get_pending_migrations available applied).map Migration.version).Pairwise
          (· < ·)) := by
  refine ⟨?_, List.filter_sublist _, ?_⟩
  · intro m
    simp [get_pending_migrations, List.mem_filter, List.contains]
  · intro h
    exact List.Pairwise.sublist ((List.filter_sublist _).map _) h

/-- Witness for C5 at a concrete ascending catalog. -/
theorem get_pending_migrations_spec_witness :
    ((get_pending_migrations
        [⟨1, "a", "", "", ""⟩, ⟨2, "b", "", "", ""⟩, ⟨3, "c", "", "", ""⟩]
        [⟨2, "b", 0, ""⟩]).map Migration.version).Pairwise (· < ·) :=
  (get_pending_migrations_spec
      [⟨1, "a", "", "", ""⟩, ⟨2, "b", "", "", ""⟩, ⟨3, "c", "", "", ""⟩]
      [⟨2, "b", 0, ""⟩]).2.2 (by decide)

/-- C9: `validate` succeeds iff the database type string is exactly
"sqlite" or "postgres" and the `email_password` flag is set; any
validated configuration therefore has a non-empty enabled-feature list
headed by the base `EmailPassword` feature. -/
theorem validate_spec (c : AuthKitConfig) :
    (c.validate = .ok () ↔
      (c.db_type = "sqlite" ∨ c.db_type = "postgres")
        ∧ c.features.email_password = true)
    ∧ (c.validate = .ok () →
        c.enabled_features ≠ []
          ∧ c.enabled_features.head? = some Feature.EmailPassword) := by
  have hmain : c.validate = .ok () ↔
      (c.db_type = "sqlite" ∨ c.db_type = "postgres")
        ∧ c.features.email_password = true := by
    unfold AuthKitConfig.validate
    split
    · split <;> simp_all
    · simp_all
  refine ⟨hmain, fun h => ?_⟩
  have hep : c.features.email_password = true := (hmain.mp h).2
  simp [AuthKitConfig.enabled_features, hep]

/-- Witness for C9 at a concrete validated configuration. -/
theorem validate_spec_witness :
    AuthKitConfig.validate ⟨"sqlite", ⟨true, false⟩⟩ = .ok ()
    ∧ (AuthKitConfig.enabled_features ⟨"sqlite", ⟨true, false⟩⟩).head?
        = some Feature.EmailPassword := by
  refine ⟨rfl, ((validate_spec ⟨"sqlite", ⟨true, false⟩⟩).2 rfl).2⟩

/-- C7: for every configuration, checksum engine, SQL template table and
dialect, the catalog built from the enabled-feature list has versions that
are strictly increasing in catalog order (hence unique), namely the
versions of the enabled features in order (base = 1 before
email-verification = 2). -/
theorem catalog_versions_spec (checksumOf : String → String)
    (sqlOf : Feature → DatabaseType → String × String)
    (c : AuthKitConfig) (db : DatabaseType) :
    ((get_migrations_from_config checksumOf sqlOf c db).map
        Migration.version).Pairwise (· < ·)
    ∧ ((get_migrations_from_config checksumOf sqlOf c db).map
        Migration.version).Nodup
    ∧ (get_migrations_from_config checksumOf sqlOf c db).map Migration.version
        = c.enabled_features.map Feature.version := by
  have hmap : (get_migrations_from_config checksumOf sqlOf c db).map
      Migration.version = c.enabled_features.map Feature.version := by
    simp only [get_migrations_from_config, get_migrations_for_features,
      List.map_map]
    rfl
  refine ⟨?_, ?_, hmap⟩ <;> rw [hmap] <;>
    obtain ⟨dbt, ⟨ep, ev⟩⟩ := c <;>
    cases ep <;> cases ev <;>
    simp [AuthKitConfig.enabled_features, Feature.version]

/-- C3: `verify_checksums` succeeds when every applied row whose version
has a catalog entry agrees with that entry's checksum (rows without a
catalog entry are never compared), and fails at the first disagreeing row
with a `ChecksumMismatch` carrying that version, the recorded digest and
the current catalog digest. -/
theorem verify_checksums_spec (available : List Migration)
    (applied : List AppliedMigration) :
    ((∀ a ∈ applied, ∀ m : Migration,
        migLookup available a.version = some m → m.checksum = a.checksum) →
      verify_checksums available applied = .ok ())
    ∧ (∀ (l₁ : List AppliedMigration) (a : AppliedMigration)
        (l₂ : List AppliedMigration) (m : Migration),
        applied = l₁ ++ a :: l₂ →
        (∀ b ∈ l₁, ∀ m' : Migration,
          migLookup available b.version = some m' → m'.checksum = b.checksum) →
        migLookup available a.version = some m →
        m.checksum ≠ a.checksum →
        verify_checksums available applied
          = .error (.ChecksumMismatch a.version a.checksum m.checksum)) := by
  refine ⟨verify_checksums_all_ok available applied, ?_⟩
  intro l₁ a l₂ m heq hpass hl hne
  subst heq
  exact verify_checksums_first_err available a m l₂ hl hne l₁ hpass

/-- Witness for C3 at a concrete catalog/applied pair with a drifted
checksum. -/
theorem verify_checksums_spec_witness :
    verify_checksums [⟨1, "base", "U", "D", "d2"⟩] [⟨1, "base", 0, "d1"⟩]
      = .error (.ChecksumMismatch 1 "d1" "d2") :=
  (verify_checksums_spec [⟨1, "base", "U", "D", "d2"⟩]
      [⟨1, "base", 0, "d1"⟩]).2 [] ⟨1, "base", 0, "d1"⟩ [] ⟨1, "base", "U", "D", "d2"⟩
    rfl (by simp) (by decide) (by decide)

/-! ## Lemmas about `dropWhile`, trimming and the comment stripper -/

theorem head_dropWhile_false {α : Type} (p : α → Bool) :
    ∀ (l : List α) (a : α), (l.dropWhile p).head? = some a → p a = false := by
  intro l
  induction l with
  | nil => intro a h; exact Option.noConfusion h
  | cons x xs ih =>
    intro a h
    rw [List.dropWhile_cons] at h
    by_cases hp : p x
    · rw [if_pos hp] at h
      exact ih a h
    · rw [if_neg hp] at h
      injection h with h
      subst h
      simpa using hp

theorem dropWhile_of_head_false {α : Type} (p : α → Bool) (l : List α)
    (h : ∀ a, l.head? = some a → p a = false) : l.dropWhile p = l := by
  cases l with
  | nil => rfl
  | cons x xs =>
    rw [List.dropWhile_cons, if_neg]
    simp [h x rfl]

theorem dropWhile_idem {α : Type} (p : α → Bool) (l : List α) :
    (l.dropWhile p).dropWhile p = l.dropWhile p :=
  dropWhile_of_head_false p _ (fun a h => head_dropWhile_false p l a h)

theorem head_of_rev_dropWhile {α : Type} (p : α → Bool) (d : List α) (a : α)
    (h : ((d.reverse.dropWhile p).reverse).head? = some a) :
    d.head? = some a := by
  have hd : d = (d.reverse.dropWhile p).reverse ++ (d.reverse.takeWhile p).reverse := by
    calc d = d.reverse.reverse := (List.reverse_reverse d).symm
    _ = (d.reverse.takeWhile p ++ d.reverse.dropWhile p).reverse := by
          rw [List.takeWhile_append_dropWhile]
    _ = (d.reverse.dropWhile p).reverse ++ (d.reverse.takeWhile p).reverse := by
          rw [List.reverse_append]
  rw [hd]
  cases hr : (d.reverse.dropWhile p).reverse with
  | nil => rw [hr] at h; exact Option.noConfusion h
  | cons x xs =>
    rw [hr] at h
    rw [List.cons_append]
    simpa using h

theorem trimChars_idem (l : List Char) : trimChars (trimChars l) = trimChars l := by
  have h1 : (trimChars l).dropWhile isWs = trimChars l := by
    apply dropWhile_of_head_false
    intro a ha
    exact head_dropWhile_false isWs l a (head_of_rev_dropWhile isWs _ a ha)
  show (((trimChars l).dropWhile isWs).reverse.dropWhile isWs).reverse = trimChars l
  rw [h1]
  have h2 : (trimChars l).reverse = (l.dropWhile isWs).reverse.dropWhile isWs := by
    show ((((l.dropWhile isWs).reverse.dropWhile isWs).reverse).reverse) = _
    rw [List.reverse_reverse]
  rw [h2, dropWhile_idem]
  rfl

theorem stripGo_true (L : List (List Char)) : stripGo L true = L := by
  induction L with
  | nil => rfl
  | cons l ls ih => simp [stripGo, ih]

theorem stripGo_false (L : List (List Char)) :
    stripGo L false = L.dropWhile skippableLine := by
  induction L with
  | nil => rfl
  | cons l ls ih =>
    rw [List.dropWhile_cons]
    show (if (trimChars l).isEmpty || startsDashDash (trimChars l) then
        stripGo ls false
      else l :: stripGo ls true) = _
    unfold skippableLine
    by_cases h : (trimChars l).isEmpty || startsDashDash (trimChars l)
    · rw [if_pos h, if_pos h, ih]; rfl
    · rw [if_neg h, if_neg h, stripGo_true]

/-- C8: the string returned by `strip_leading_comments` is a fixed point
of trimming, i.e. carries no leading or trailing whitespace; in
particular post-code trailing whitespace is not preserved byte-for-byte. -/
theorem strip_leading_comments_trim_spec :
    (∀ sql : String,
      trimChars (strip_leading_comments sql).data
        = (strip_leading_comments sql).data)
    ∧ strip_leading_comments "CREATE TABLE t (id INT)  \n\n"
        = "CREATE TABLE t (id INT)" := by
  constructor
  · intro sql
    show trimChars (stripChars sql.data) = stripChars sql.data
    unfold stripChars
    exact trimChars_idem _
  · rfl

/-- C4 counterexample: an input whose first code line carries leading
indentation is not returned verbatim from that line on — the final trim
removes the indentation — refuting the claim's universal "preserves every
line from that point on verbatim". -/
theorem strip_leading_comments_not_verbatim :
    strip_leading_comments "  CREATE TABLE t (id INT)"
        = "CREATE TABLE t (id INT)"
    ∧ strip_leading_comments "  CREATE TABLE t (id INT)"
        ≠ "  CREATE TABLE t (id INT)" := by
  refine ⟨rfl, by decide⟩

/-- C4 (amended): `strip_leading_comments` drops leading blank lines and
leading `--` comment lines, stops at the first non-comment non-blank
line, keeps every line from that point on (inline trailing comments
included), joins them with newlines, and finally trims surrounding
whitespace from the joined result; an input consisting only of comment
and blank lines yields the empty string. -/
theorem strip_leading_comments_spec (sql : String) :
    strip_leading_comments sql
      = String.mk (trimChars (joinLines
          ((rustLines sql.data).dropWhile skippableLine)))
    ∧ ((∀ l ∈ rustLines sql.data, skippableLine l) →
        strip_leading_comments sql = "") := by
  have hmain : strip_leading_comments sql
      = String.mk (trimChars (joinLines
          ((rustLines sql.data).dropWhile skippableLine))) := by
    show String.mk (stripChars sql.data) = _
    unfold stripChars
    rw [stripGo_false]
  refine ⟨hmain, fun hall => ?_⟩
  rw [hmain]
  have hnil : (rustLines sql.data).dropWhile skippableLine = [] :=
    List.dropWhile_eq_nil_iff.mpr hall
  rw [hnil]
  rfl

/-- Witness for C4's amended claim at the all-comment input from the
spec's examples. -/
theorem strip_leading_comments_spec_witness :
    strip_leading_comments "-- Just a comment\n-- Another comment" = "" :=
  (strip_leading_comments_spec "-- Just a comment\n-- Another comment").2
    (by decide)

/-! ## Lemmas about statement execution and the pending-queue run -/

theorem execStatements_tracking (exec : String → Except String Unit)
    (n : String) : ∀ (ss : List String) (db : DB),
    (execStatements exec n db ss).1.tracking = db.tracking := by
  intro ss
  induction ss with
  | nil => intro db; rfl
  | cons s rest ih =>
    intro db
    simp only [execStatements]
    split
    · next u heq => exact ih _
    · next e heq => rfl

theorem execStatements_all_ok (exec : String → Except String Unit)
    (n : String) : ∀ (ss : List String) (db : DB),
    (∀ s ∈ ss, exec s = .ok ()) →
    execStatements exec n db ss
      = ({ db with executed := db.executed ++ ss }, none) := by
  intro ss
  induction ss with
  | nil => intro db _; simp [execStatements]
  | cons s rest ih =>
    intro db h
    simp only [execStatements]
    split
    · next u heq =>
      rw [ih _ (fun t ht => h t (List.mem_cons_of_mem _ ht))]
      simp [List.append_assoc]
    · next e heq =>
      rw [h s (List.mem_cons_self _ _)] at heq
      exact Except.noConfusion heq

theorem execStatements_first_err (exec : String → Except String Unit)
    (n : String) (s : String) (e : String) (h2 : exec s = .error e) :
    ∀ (l₁ : List String) (l₂ : List String) (db : DB),
    (∀ t ∈ l₁, exec t = .ok ()) →
    execStatements exec n db (l₁ ++ s :: l₂)
      = ({ db with executed := db.executed ++ l₁ },
         some (.Migration ("Failed to execute migration " ++ n ++ ": " ++ e))) := by
  intro l₁
  induction l₁ with
  | nil =>
    intro l₂ db _
    rw [List.nil_append]
    simp only [execStatements]
    split
    · next u heq =>
      rw [h2] at heq
      exact Except.noConfusion heq
    · next e' heq =>
      rw [h2] at heq
      injection heq with heq
      subst heq
      simp
  | cons t rest ih =>
    intro l₂ db h1
    rw [List.cons_append]
    simp only [execStatements]
    split
    · next u heq =>
      rw [ih l₂ _ (fun x hx => h1 x (List.mem_cons_of_mem _ hx))]
      simp [List.append_assoc]
    · next e' heq =>
      rw [h1 t (List.mem_cons_self _ _)] at heq
      exact Except.noConfusion heq

theorem apply_migration_all_ok (exec : String → Except String Unit)
    (now : Int) (db : DB) (m : Migration) (h : migOk exec m) :
    apply_migration exec now db m
      = ({ executed := db.executed ++ splitStatements m.up_sql,
           tracking := db.tracking ++ [appliedRow now m] }, none) := by
  unfold apply_migration
  rw [execStatements_all_ok exec m.name _ db h]
  rfl

theorem apply_migration_first_err (exec : String → Except String Unit)
    (now : Int) (db : DB) (m : Migration) (l₁ : List String) (s : String)
    (l₂ : List String) (e : String)
    (hsplit : splitStatements m.up_sql = l₁ ++ s :: l₂)
    (h1 : ∀ t ∈ l₁, exec t = .ok ()) (h2 : exec s = .error e) :
    apply_migration exec now db m
      = ({ db with executed := db.executed ++ l₁ },
         some (.Migration
           ("Failed to execute migration " ++ m.name ++ ": " ++ e))) := by
  unfold apply_migration
  rw [hsplit, execStatements_first_err exec m.name s e h2 l₁ l₂ db h1]

theorem run_pending_go_all_ok (exec : String → Except String Unit)
    (now : Int) : ∀ (ms : List Migration) (db : DB),
    (∀ m ∈ ms, migOk exec m) →
    run_pending_go exec now ms db
      = ({ executed := db.executed ++ stmtsOf ms,
           tracking := db.tracking ++ ms.map (appliedRow now) },
         .ok (ms.map Migration.name)) := by
  intro ms
  induction ms with
  | nil => intro db _; simp [run_pending_go, stmtsOf]
  | cons m rest ih =>
    intro db h
    simp only [run_pending_go]
    rw [apply_migration_all_ok exec now db m (h m (List.mem_cons_self _ _)),
      ih _ (fun x hx => h x (List.mem_cons_of_mem _ hx))]
    simp [stmtsOf, List.append_assoc]

theorem run_pending_go_first_err (exec : String → Except String Unit)
    (now : Int) (mf : Migration) (l₁ : List String) (s : String)
    (l₂ : List String) (e : String)
    (hsplit : splitStatements mf.up_sql = l₁ ++ s :: l₂)
    (hok : ∀ t ∈ l₁, exec t = .ok ()) (herr : exec s = .error e) :
    ∀ (p₁ : List Migration) (p₂ : List Migration) (db : DB),
    (∀ x ∈ p₁, migOk exec x) →
    run_pending_go exec now (p₁ ++ mf :: p₂) db
      = ({ executed := db.executed ++ stmtsOf p₁ ++ l₁,
           tracking := db.tracking ++ p₁.map (appliedRow now) },
         .error (.Migration
           ("Failed to execute migration " ++ mf.name ++ ": " ++ e))) := by
  intro p₁
  induction p₁ with
  | nil =>
    intro p₂ db _
    rw [List.nil_append]
    simp only [run_pending_go]
    rw [apply_migration_first_err exec now db mf l₁ s l₂ e hsplit hok herr]
    simp [stmtsOf]
  | cons x rest ih =>
    intro p₂ db hp
    rw [List.cons_append]
    simp only [run_pending_go]
    rw [apply_migration_all_ok exec now db x (hp x (List.mem_cons_self _ _)),
      ih p₂ _ (fun y hy => hp y (List.mem_cons_of_mem _ hy))]
    simp [stmtsOf, List.append_assoc]

/-- C2: `apply_migration` executes the split statements in order, stopping
at the first failing statement with a migration-execution error naming the
migration and inserting no tracking row, and on full success inserts
exactly one tracking row carrying the current timestamp; `run_pending`
applies the pending queue in order and aborts the rest of the queue at the
first failing migration, leaving the earlier successes recorded. -/
theorem apply_and_run_pending_spec (exec : String → Except String Unit)
    (now : Int) (db : DB) :
    (∀ m : Migration, migOk exec m →
      apply_migration exec now db m
        = ({ executed := db.executed ++ splitStatements m.up_sql,
             tracking := db.tracking ++ [appliedRow now m] }, none))
    ∧ (∀ (m : Migration) (l₁ : List String) (s : String) (l₂ : List String)
        (e : String),
        splitStatements m.up_sql = l₁ ++ s :: l₂ →
        (∀ t ∈ l₁, exec t = .ok ()) → exec s = .error e →
        apply_migration exec now db m
          = ({ db with executed := db.executed ++ l₁ },
             some (.Migration
               ("Failed to execute migration " ++ m.name ++ ": " ++ e))))
    ∧ (∀ catalog : List Migration,
        (∀ m ∈ get_pending_migrations catalog db.tracking, migOk exec m) →
        run_pending exec now catalog db
          = ({ executed := db.executed
                  ++ stmtsOf (get_pending_migrations catalog db.tracking),
               tracking := db.tracking
                  ++ (get_pending_migrations catalog db.tracking).map
                      (appliedRow now) },
             .ok ((get_pending_migrations catalog db.tracking).map
                    Migration.name)))
    ∧ (∀ (catalog : List Migration) (p₁ : List Migration) (mf : Migration)
        (p₂ : List Migration) (l₁ : List String) (s : String)
        (l₂ : List String) (e : String),
        get_pending_migrations catalog db.tracking = p₁ ++ mf :: p₂ →
        (∀ x ∈ p₁, migOk exec x) →
        splitStatements mf.up_sql = l₁ ++ s :: l₂ →
        (∀ t ∈ l₁, exec t = .ok ()) → exec s = .error e →
        run_pending exec now catalog db
          = ({ executed := db.executed ++ stmtsOf p₁ ++ l₁,
               tracking := db.tracking ++ p₁.map (appliedRow now) },
             .error (.Migration
               ("Failed to execute migration " ++ mf.name ++ ": " ++ e)))) := by
  refine ⟨?_, ?_, ?_, ?_⟩
  · intro m h
    exact apply_migration_all_ok exec now db m h
  · intro m l₁ s l₂ e hsplit h1 h2
    exact apply_migration_first_err exec now db m l₁ s l₂ e hsplit h1 h2
  · intro catalog h
    unfold run_pending
    exact run_pending_go_all_ok exec now _ db h
  · intro catalog p₁ mf p₂ l₁ s l₂ e hpend hp hsplit hok herr
    unfold run_pending
    rw [hpend]
    exact run_pending_go_first_err exec now mf l₁ s l₂ e hsplit hok herr
      p₁ p₂ db hp

/-- Witness for C2: a concrete two-statement migration whose second
statement fails leaves the first statement executed, no tracking row, and
an error naming the migration. -/
theorem apply_and_run_pending_spec_witness :
    apply_migration
        (fun s => if s = "BAD" then .error "boom" else .ok ()) 7
        ⟨[], []⟩ ⟨1, "base", "CREATE A;BAD", "", "ck"⟩
      = (⟨["CREATE A"], []⟩,
         some (.Migration "Failed to execute migration base: boom")) := by
  have h := (apply_and_run_pending_spec
      (fun s => if s = "BAD" then .error "boom" else .ok ()) 7 ⟨[], []⟩).2.1
    ⟨1, "base", "CREATE A;BAD", "", "ck"⟩ ["CREATE A"] "BAD" [] "boom"
    (by decide)
    (by intro t ht; rw [List.mem_singleton] at ht; subst ht; rfl)
    rfl
  simpa using h

theorem apply_migration_err_tracking (exec : String → Except String Unit)
    (now : Int) (db : DB) (m : Migration) :
    (apply_migration exec now db m).1.tracking = db.tracking
    ∨ (apply_migration exec now db m).1.tracking
        = db.tracking ++ [appliedRow now m] := by
  simp only [apply_migration]
  cases hr : (execStatements exec m.name db (splitStatements m.up_sql)).2 with
  | some e =>
    left
    simp only [hr]
    exact execStatements_tracking exec m.name _ db
  | none =>
    right
    simp only [hr, record_migration]
    rw [execStatements_tracking exec m.name _ db]

theorem apply_migration_none_tracking (exec : String → Except String Unit)
    (now : Int) (db : DB) (m : Migration)
    (h : (apply_migration exec now db m).2 = none) :
    (apply_migration exec now db m).1.tracking
      = db.tracking ++ [appliedRow now m] := by
  simp only [apply_migration] at h ⊢
  cases hr : (execStatements exec m.name db (splitStatements m.up_sql)).2 with
  | some e =>
    rw [hr] at h
    simp at h
  | none =>
    simp only [hr, record_migration]
    rw [execStatements_tracking exec m.name _ db]

theorem run_pending_go_tracking_extends (exec : String → Except String Unit)
    (now : Int) : ∀ (ms : List Migration) (db : DB),
    ∃ extra : List AppliedMigration,
    (run_pending_go exec now ms db).1.tracking = db.tracking ++ extra := by
  intro ms
  induction ms with
  | nil => intro db; exact ⟨[], by simp [run_pending_go]⟩
  | cons m rest ih =>
    intro db
    simp only [run_pending_go]
    cases hr : (apply_migration exec now db m).2 with
    | some e =>
      simp only [hr]
      rcases apply_migration_err_tracking exec now db m with h | h
      · exact ⟨[], by rw [h, List.append_nil]⟩
      · exact ⟨[appliedRow now m], h⟩
    | none =>
      simp only [hr]
      obtain ⟨extra, hex⟩ := ih (apply_migration exec now db m).1
      have htr := apply_migration_none_tracking exec now db m hr
      cases hr2 : (run_pending_go exec now rest (apply_migration exec now db m).1).2 with
      | ok names =>
        simp only [hr2]
        exact ⟨[appliedRow now m] ++ extra, by
          rw [hex, htr, List.append_assoc]⟩
      | error e =>
        simp only [hr2]
        exact ⟨[appliedRow now m] ++ extra, by
          rw [hex, htr, List.append_assoc]⟩

theorem run_pending_go_ok_mem (exec : String → Except String Unit)
    (now : Int) : ∀ (ms : List Migration) (db : DB) (names : List String),
    (run_pending_go exec now ms db).2 = .ok names →
    ∀ m ∈ ms, m.version ∈
      ((run_pending_go exec now ms db).1.tracking.map
        AppliedMigration.version) := by
  intro ms
  induction ms with
  | nil => intro db names _ m hm; exact absurd hm (List.not_mem_nil m)
  | cons x rest ih =>
    intro db names h m hm
    simp only [run_pending_go] at h ⊢
    cases hr : (apply_migration exec now db x).2 with
    | some e =>
      rw [hr] at h
      simp at h
    | none =>
      rw [hr] at h
      simp only [hr]
      have htr := apply_migration_none_tracking exec now db x hr
      cases hr2 : (run_pending_go exec now rest
          (apply_migration exec now db x).1).2 with
      | error e =>
        rw [hr2] at h
        simp at h
      | ok names2 =>
        rw [hr2] at h
        simp only [hr2]
        obtain ⟨extra, hex⟩ :=
          run_pending_go_tracking_extends exec now rest
            (apply_migration exec now db x).1
        rcases List.mem_cons.mp hm with hmx | hmrest
        · subst hmx
          rw [hex, htr, List.map_append, List.map_append]
          refine List.mem_append_left _ (List.mem_append_right _ ?_)
          simp [appliedRow]
        · exact ih _ names2 hr2 m hmrest

/-- C6: if `run_pending` succeeds, recomputing the pending queue against
the same catalog and the updated tracking table yields the empty list. -/
theorem run_pending_idempotent (exec : String → Except String Unit)
    (now : Int) (catalog : List Migration) (db : DB) (names : List String)
    (h : (run_pending exec now catalog db).2 = .ok names) :
    get_pending_migrations catalog
      (run_pending exec now catalog db).1.tracking = [] := by
  unfold run_pending at h ⊢
  apply List.filter_eq_nil_iff.mpr
  intro m hm
  have hmem : m.version ∈
      ((run_pending_go exec now
          (get_pending_migrations catalog db.tracking) db).1.tracking.map
        AppliedMigration.version) := by
    by_cases hp : m.version ∈ db.tracking.map AppliedMigration.version
    · obtain ⟨extra, hex⟩ :=
        run_pending_go_tracking_extends exec now
          (get_pending_migrations catalog db.tracking) db
      rw [hex, List.map_append]
      exact List.mem_append_left _ hp
    · have hpend : m ∈ get_pending_migrations catalog db.tracking := by
        unfold get_pending_migrations
        rw [List.mem_filter]
        refine ⟨hm, ?_⟩
        simp [List.contains, hp]
      exact run_pending_go_ok_mem exec now _ db names h m hpend
  simp [List.contains, hmem]

/-- Witness for C6: a concrete successful run leaves nothing pending. -/
theorem run_pending_idempotent_witness :
    get_pending_migrations [⟨1, "base", "CREATE A", "", "ck"⟩]
      (run_pending (fun _ => .ok ()) 7
        [⟨1, "base", "CREATE A", "", "ck"⟩] ⟨[], []⟩).1.tracking = [] :=
  run_pending_idempotent (fun _ => .ok ()) 7
    [⟨1, "base", "CREATE A", "", "ck"⟩] ⟨[], []⟩ ["base"] rfl

/-! ## Lemmas about the status diff -/

theorem status_entry_cases (available : List Migration)
    (applied : List AppliedMigration) (e : StatusEntry)
    (he : e ∈ get_migration_status available applied) :
    (∃ m ∈ available, e = statusOfMig applied m)
    ∨ (∃ a, a ∈ applied
        ∧ (!((available.map Migration.version).contains a.version)) = true
        ∧ e = statusOfMissing a) := by
  unfold get_migration_status at he
  rw [List.mem_mergeSort, List.mem_append] at he
  rcases he with he | he
  · left
    obtain ⟨m, hm, heq⟩ := List.mem_map.mp he
    exact ⟨m, hm, heq.symm⟩
  · right
    obtain ⟨a, ha, heq⟩ := List.mem_map.mp he
    obtain ⟨ha1, ha2⟩ := List.mem_filter.mp ha
    exact ⟨a, ha1, ha2, heq.symm⟩

theorem statusOfMig_version (applied : List AppliedMigration)
    (m : Migration) : (statusOfMig applied m).version = m.version := by
  unfold statusOfMig
  cases appliedLookup applied m.version <;> rfl

/-- C10: in every status entry, the timestamp is `none` exactly for
Pending entries; Applied and Missing entries carry the timestamp of a
tracking row of the same version. -/
theorem status_timestamp_spec (available : List Migration)
    (applied : List AppliedMigration) :
    ∀ e ∈ get_migration_status available applied,
      (e.applied_at = none ↔ e.state = MigrationState.Pending)
      ∧ ((e.state = MigrationState.Applied
            ∨ e.state = MigrationState.Missing) →
          ∃ a ∈ applied, a.version = e.version
            ∧ e.applied_at = some a.applied_at) := by
  intro e he
  rcases status_entry_cases available applied e he with
    ⟨m, hm, rfl⟩ | ⟨a, ha, hc, rfl⟩
  · unfold statusOfMig
    cases hl : appliedLookup applied m.version with
    | some a =>
      obtain ⟨ha1, ha2⟩ := appliedLookup_some_mem applied m.version a hl
      exact ⟨by simp, fun _ => ⟨a, ha1, by simpa using ha2, by simp⟩⟩
    | none =>
      exact ⟨by simp, fun hco => absurd hco (by simp)⟩
  · unfold statusOfMissing
    exact ⟨by simp, fun _ => ⟨a, ha, by simp, by simp⟩⟩

/-- Witness for C10 at a concrete status list containing an Applied, a
Pending and a Missing entry. -/
theorem status_timestamp_spec_witness :
    ((⟨3, "c", MigrationState.Pending, none⟩ : StatusEntry).applied_at = none
      ↔ (⟨3, "c", MigrationState.Pending, none⟩ : StatusEntry).state
          = MigrationState.Pending) :=
  (status_timestamp_spec
      [⟨1, "a", "", "", ""⟩, ⟨3, "c", "", "", ""⟩]
      [⟨1, "a", 10, ""⟩, ⟨2, "b", 20, ""⟩]
      ⟨3, "c", MigrationState.Pending, none⟩
      (by unfold get_migration_status; rw [List.mem_mergeSort]; decide)).1

theorem statusLE_trans (a b c : StatusEntry)
    (h1 : statusLE a b) (h2 : statusLE b c) : statusLE a c := by
  simp only [statusLE, decide_eq_true_eq] at h1 h2 ⊢
  omega

theorem statusLE_total (a b : StatusEntry) : statusLE a b || statusLE b a := by
  simp only [statusLE, Bool.or_eq_true, decide_eq_true_eq]
  omega

/-- C1: with unique versions on both sides (versions are unique in the
catalog and are the tracking table's primary key), the status diff has
exactly one entry per version of the union — no duplicate versions, and a
version appears iff it is in the catalog or in the applied set — each
entry classified Applied / Pending / Missing by which sides contain its
version, and the list is sorted by ascending version. -/
theorem get_migration_status_spec (available : List Migration)
    (applied : List AppliedMigration)
    (hC : (available.map Migration.version).Nodup)
    (hA : (applied.map AppliedMigration.version).Nodup) :
    ((get_migration_status available applied).map StatusEntry.version).Nodup
    ∧ (∀ v : Nat,
        v ∈ (get_migration_status available applied).map StatusEntry.version
          ↔ v ∈ available.map Migration.version
            ∨ v ∈ applied.map AppliedMigration.version)
    ∧ (∀ e ∈ get_migration_status available applied,
        (e.state = MigrationState.Applied ↔
          e.version ∈ available.map Migration.version
            ∧ e.version ∈ applied.map AppliedMigration.version)
        ∧ (e.state = MigrationState.Pending ↔
          e.version ∈ available.map Migration.version
            ∧ e.version ∉ applied.map AppliedMigration.version)
        ∧ (e.state = MigrationState.Missing ↔
          e.version ∈ applied.map AppliedMigration.version
            ∧ e.version ∉ available.map Migration.version))
    ∧ (get_migration_status available applied).Pairwise
        (fun x y => x.version ≤ y.version) := by
  have hperm : List.Perm (get_migration_status available applied)
      (available.map (statusOfMig applied) ++
        (applied.filter (fun a =>
          !((available.map Migration.version).contains a.version))).map
          statusOfMissing) :=
    List.mergeSort_perm _ _
  have hvers : ((available.map (statusOfMig applied) ++
      (applied.filter (fun a =>
        !((available.map Migration.version).contains a.version))).map
        statusOfMissing).map StatusEntry.version)
      = available.map Migration.version ++
        (applied.filter (fun a =>
          !((available.map Migration.version).contains a.version))).map
          AppliedMigration.version := by
    rw [List.map_append, List.map_map, List.map_map]
    congr 1
    exact List.map_congr_left (fun m _ => statusOfMig_version applied m)
  have hmissV_nodup : ((applied.filter (fun a =>
      !((available.map Migration.version).contains a.version))).map
        AppliedMigration.version).Nodup :=
    ((List.filter_sublist _).map _).nodup hA
  have hdisj : (available.map Migration.version).Disjoint
      ((applied.filter (fun a =>
        !((available.map Migration.version).contains a.version))).map
        AppliedMigration.version) := by
    intro v hv hv2
    obtain ⟨a, haf, heq⟩ := List.mem_map.mp hv2
    obtain ⟨ha, hpa⟩ := List.mem_filter.mp haf
    rw [heq] at hpa
    simp only [List.contains, Bool.not_eq_true', List.elem_eq_mem,
      decide_eq_false_iff_not] at hpa
    exact hpa hv
  refine ⟨?_, ?_, ?_, ?_⟩
  · rw [(hperm.map StatusEntry.version).nodup_iff, hvers]
    exact hC.append hmissV_nodup hdisj
  · intro v
    rw [(hperm.map StatusEntry.version).mem_iff, hvers, List.mem_append]
    constructor
    · rintro (h | h)
      · exact Or.inl h
      · obtain ⟨a, haf, heq⟩ := List.mem_map.mp h
        exact Or.inr (heq ▸ List.mem_map_of_mem _ (List.mem_filter.mp haf).1)
    · rintro (h | h)
      · exact Or.inl h
      · by_cases hin : v ∈ available.map Migration.version
        · exact Or.inl hin
        · right
          obtain ⟨a, ha, heq⟩ := List.mem_map.mp h
          subst heq
          refine List.mem_map_of_mem _ (List.mem_filter.mpr ⟨ha, ?_⟩)
          simp only [List.contains, Bool.not_eq_true', List.elem_eq_mem,
            decide_eq_false_iff_not]
          exact hin
  · intro e he
    rcases status_entry_cases available applied e he with
      ⟨m, hm, rfl⟩ | ⟨a, ha, hc, rfl⟩
    · unfold statusOfMig
      cases hl : appliedLookup applied m.version with
      | some a =>
        have hmemA : m.version ∈ applied.map AppliedMigration.version := by
          obtain ⟨h1, h2⟩ := appliedLookup_some_mem applied m.version a hl
          exact h2 ▸ List.mem_map_of_mem _ h1
        have hmemC : m.version ∈ available.map Migration.version :=
          List.mem_map_of_mem _ hm
        refine ⟨?_, ?_, ?_⟩ <;> simp [hmemA, hmemC]
      | none =>
        have hnotA : m.version ∉ applied.map AppliedMigration.version :=
          (appliedLookup_eq_none_iff applied m.version).mp hl
        have hmemC : m.version ∈ available.map Migration.version :=
          List.mem_map_of_mem _ hm
        refine ⟨?_, ?_, ?_⟩ <;> simp [hnotA, hmemC]
    · have hmemA : a.version ∈ applied.map AppliedMigration.version :=
        List.mem_map_of_mem _ ha
      have hnotC : a.version ∉ available.map Migration.version := by
        simp only [List.contains, Bool.not_eq_true', List.elem_eq_mem,
          decide_eq_false_iff_not] at hc
        exact hc
      unfold statusOfMissing
      refine ⟨?_, ?_, ?_⟩ <;> simp [hmemA, hnotC]
  · have hs := @List.sorted_mergeSort StatusEntry statusLE
      (fun a b c => statusLE_trans a b c) statusLE_total
      (available.map (statusOfMig applied) ++
        (applied.filter (fun a =>
          !((available.map Migration.version).contains a.version))).map
          statusOfMissing)
    exact hs.imp (fun hab => by
      simpa only [statusLE, decide_eq_true_eq] using hab)

/-- Witness for C1 at a concrete catalog/applied pair covering all three
classifications. -/
theorem get_migration_status_spec_witness :
    ((get_migration_status
        [⟨1, "a", "", "", ""⟩, ⟨3, "c", "", "", ""⟩]
        [⟨1, "a", 10, ""⟩, ⟨2, "b", 20, ""⟩]).map
      StatusEntry.version).Nodup :=
  (get_migration_status_spec
      [⟨1, "a", "", "", ""⟩, ⟨3, "c", "", "", ""⟩]
      [⟨1, "a", 10, ""⟩, ⟨2, "b", 20, ""⟩]
      (by decide) (by decide)).1

end AuthKit
